import Mathlib

set_option maxHeartbeats 1000000

/-!
Shallow embedding of `scripts/generate_lorem.py`.

Strings are modelled as `List Char`.  Python's mutable `random.Random`
instance is modelled as an explicit stream of naturals together with a
position, threaded through every generating function, so a "draw" is the
next element of the stream.  Python's floor division `//` and floor
modulus `%` on `int` are `Int.fdiv` and `Int.fmod`.
-/

/-- The fixed word pool `LOREM_WORDS` of the script (69 tokens, with
duplicates, exactly as produced by splitting the literal on spaces). -/
def LOREM_WORDS : List (List Char) :=
  ["lorem", "ipsum", "dolor", "sit", "amet", "consectetur", "adipiscing", "elit",
   "sed", "do", "eiusmod", "tempor", "incididunt", "ut", "labore", "et", "dolore",
   "magna", "aliqua", "ut", "enim", "ad", "minim", "veniam", "quis", "nostrud",
   "exercitation", "ullamco", "laboris", "nisi", "ut", "aliquip", "ex", "ea",
   "commodo", "consequat", "duis", "aute", "irure", "dolor", "in", "reprehenderit",
   "in", "voluptate", "velit", "esse", "cillum", "dolore", "eu", "fugiat", "nulla",
   "pariatur", "excepteur", "sint", "occaecat", "cupidatat", "non", "proident",
   "sunt", "in", "culpa", "qui", "officia", "deserunt", "mollit", "anim", "id",
   "est", "laborum"].map String.toList

/-- Python `sep.join(parts)`. -/
def joinWith (sep : List Char) : List (List Char) → List Char
  | [] => []
  | [x] => x
  | x :: y :: rest => x ++ sep ++ joinWith sep (y :: rest)

/-- `" ".join(words)`. -/
def joinWords (ws : List (List Char)) : List Char := joinWith [' '] ws

/-- `distribute_chars` from the script.  Python `//` is floor division
(`Int.fdiv`) and `%` is floor modulus (`Int.fmod`). -/
def distribute_chars (total_chars : Int) (paragraphs : Int) : List Int :=
  if paragraphs ≤ 0 then []
  else
    (List.range paragraphs.toNat).map
      (fun (i : Nat) => Int.fdiv total_chars paragraphs +
        (if (i : Int) < Int.fmod total_chars paragraphs then 1 else 0))

/-- The minimum-budget fallback applied in `main` before distribution:
`if total_chars < paragraphs * 20: total_chars = max(total_chars, paragraphs * 20)`. -/
def effective_total (total_chars paragraphs : Int) : Int :=
  if total_chars < paragraphs * 20 then max total_chars (paragraphs * 20)
  else total_chars

theorem sum_budget (base r : Int) (hr : 0 ≤ r) (n : Nat) :
    ((List.range n).map (fun (i : Nat) => base + if (i : Int) < r then 1 else 0)).sum
      = (n : Int) * base + min r (n : Int) := by
  induction n with
  | zero => simp [min_eq_right hr]
  | succ n ih =>
    rw [List.range_succ, List.map_append, List.sum_append, ih]
    simp only [List.map_cons, List.map_nil, List.sum_cons, List.sum_nil]
    by_cases h : (n : Int) < r
    · rw [if_pos h, min_eq_right (by omega : (n : Int) ≤ r),
        min_eq_right (by push_cast; omega : ((n + 1 : Nat) : Int) ≤ r)]
      push_cast
      ring
    · rw [if_neg h, min_eq_left (by omega : r ≤ (n : Int)),
        min_eq_left (by push_cast; omega : r ≤ ((n + 1 : Nat) : Int))]
      push_cast
      ring

theorem distribute_chars_pos {tc pc : Int} (hpc : 0 < pc) :
    distribute_chars tc pc = (List.range pc.toNat).map
      (fun (i : Nat) => Int.fdiv tc pc +
        (if (i : Int) < Int.fmod tc pc then 1 else 0)) := by
  unfold distribute_chars
  rw [if_neg (by omega)]

theorem distribute_chars_mem {tc pc : Int} (hpc : 0 < pc) {x : Int}
    (hx : x ∈ distribute_chars tc pc) :
    x = Int.fdiv tc pc ∨ x = Int.fdiv tc pc + 1 := by
  rw [distribute_chars_pos hpc] at hx
  simp only [List.mem_map, List.mem_range] at hx
  obtain ⟨i, _, rfl⟩ := hx
  by_cases h : (i : Int) < Int.fmod tc pc
  · right; rw [if_pos h]
  · left; rw [if_neg h]; ring

/-- C1: for `total_chars ≥ 0` and `paragraph_count > 0`, `distribute_chars`
returns exactly `paragraph_count` non-negative integers summing to
`total_chars`, all within 1 of each other, with the remainder of the floor
division distributed as `+1` to the first `remainder` entries. -/
theorem C1_distribute_chars_spec (total_chars paragraphs : Int)
    (h0 : 0 ≤ total_chars) (hp : 0 < paragraphs) :
    (distribute_chars total_chars paragraphs).length = paragraphs.toNat ∧
    (∀ x ∈ distribute_chars total_chars paragraphs, 0 ≤ x) ∧
    (distribute_chars total_chars paragraphs).sum = total_chars ∧
    (∀ x ∈ distribute_chars total_chars paragraphs,
      ∀ y ∈ distribute_chars total_chars paragraphs, x - y ≤ 1) ∧
    (∀ i : Nat, i < paragraphs.toNat →
      (distribute_chars total_chars paragraphs)[i]? =
        some (Int.fdiv total_chars paragraphs +
          (if (i : Int) < Int.fmod total_chars paragraphs then 1 else 0))) := by
  have hbase : 0 ≤ Int.fdiv total_chars paragraphs := by
    rw [Int.fdiv_eq_ediv _ hp.le]
    exact Int.ediv_nonneg h0 hp.le
  refine ⟨?_, ?_, ?_, ?_, ?_⟩
  · rw [distribute_chars_pos hp]
    simp
  · intro x hx
    rcases distribute_chars_mem hp hx with rfl | rfl <;> omega
  · rw [distribute_chars_pos hp]
    rw [sum_budget _ _ (Int.fmod_nonneg' total_chars hp)]
    have hr : Int.fmod total_chars paragraphs < paragraphs :=
      Int.fmod_lt_of_pos total_chars hp
    have hcast : ((paragraphs.toNat : Nat) : Int) = paragraphs :=
      Int.toNat_of_nonneg hp.le
    rw [hcast, min_eq_left hr.le]
    exact Int.fdiv_add_fmod total_chars paragraphs
  · intro x hx y hy
    rcases distribute_chars_mem hp hx with rfl | rfl <;>
      rcases distribute_chars_mem hp hy with h | h <;> omega
  · intro i hi
    rw [distribute_chars_pos hp]
    simp [List.getElem?_map, List.getElem?_range, hi]

/-- C9: `distribute_chars(x, 0)` is the empty sequence for every integer `x`. -/
theorem C9_distribute_chars_zero (x : Int) : distribute_chars x 0 = [] := by
  simp [distribute_chars]

theorem effective_total_ge {tc pc : Int} : pc * 20 ≤ effective_total tc pc := by
  unfold effective_total
  by_cases h : tc < pc * 20
  · rw [if_pos h]; exact le_max_right _ _
  · rw [if_neg h]; omega

theorem distribute_effective_ge20 (tc pc : Int) :
    ∀ x ∈ distribute_chars (effective_total tc pc) pc, 20 ≤ x := by
  intro x hx
  by_cases hpc : pc ≤ 0
  · simp [distribute_chars, if_pos hpc] at hx
  · have hpc' : 0 < pc := by omega
    have hge : pc * 20 ≤ effective_total tc pc := effective_total_ge
    have hbase : 20 ≤ Int.fdiv (effective_total tc pc) pc := by
      rw [Int.fdiv_eq_ediv _ hpc'.le]
      rw [Int.le_ediv_iff_mul_le hpc']
      omega
    rcases distribute_chars_mem hpc' hx with rfl | rfl <;> omega

/-- C6: whenever `total_chars < paragraphs * 20` the effective total is
raised to `max total_chars (paragraphs * 20)`, every distributed budget is
at least 20, and in particular `paragraphs = 5, characters = 10` yields an
effective total of 100. -/
theorem C6_effective_total_spec :
    (∀ tc pc : Int, tc < pc * 20 →
      effective_total tc pc = max tc (pc * 20)) ∧
    (∀ tc pc : Int, ∀ x ∈ distribute_chars (effective_total tc pc) pc, 20 ≤ x) ∧
    effective_total 10 5 = 100 := by
  refine ⟨?_, distribute_effective_ge20, by decide⟩
  intro tc pc h
  unfold effective_total
  rw [if_pos h]

/-- Witness for C1 at `total_chars = 7`, `paragraphs = 3`. -/
theorem C1_distribute_chars_spec_witness :
    (0 : Int) ≤ 7 ∧ (0 : Int) < 3 ∧
      (distribute_chars 7 3).sum = 7 := by
  refine ⟨by decide, by decide, ?_⟩
  exact (C1_distribute_chars_spec 7 3 (by decide) (by decide)).2.2.1

/-- Witness for C6 at `tc = 10`, `pc = 5`. -/
theorem C6_effective_total_spec_witness :
    (10 : Int) < 5 * 20 ∧ effective_total 10 5 = max 10 (5 * 20) :=
  ⟨by decide, C6_effective_total_spec.1 10 5 (by decide)⟩

/-- Python's seeded `random.Random` modelled as a stream of naturals plus a
position; each draw consumes one stream element. -/
structure RNG where
  stream : Nat → Nat
  pos : Nat

/-- One draw from the generator. -/
def RNG.next (g : RNG) : Nat × RNG :=
  (g.stream g.pos, { stream := g.stream, pos := g.pos + 1 })

/-- `rng.choice(LOREM_WORDS)`: one draw selecting a pool word. -/
def choice (g : RNG) : List Char × RNG :=
  let p := g.next
  (LOREM_WORDS.get ⟨p.1 % LOREM_WORDS.length, Nat.mod_lt _ (by decide)⟩, p.2)

/-- `rng.randint(lo, hi)` (inclusive bounds): one draw. -/
def randint (lo hi : Nat) (g : RNG) : Nat × RNG :=
  let p := g.next
  (lo + p.1 % (hi + 1 - lo), p.2)

/-- Python `str.capitalize()`: first character uppercased, rest lowercased. -/
def capitalize : List Char → List Char
  | [] => []
  | c :: cs => c.toUpper :: cs.map Char.toLower

/-- The whitespace characters recognised by Python's `str.strip()`. -/
def isPySpace (c : Char) : Bool :=
  c == ' ' || c == '\t' || c == '\n' || c == '\r' || c == '\x0b' || c == '\x0c'

/-- Python `str.lstrip()`. -/
def lstrip (s : List Char) : List Char := s.dropWhile isPySpace

/-- Python `str.rstrip()`. -/
def rstrip (s : List Char) : List Char := (s.reverse.dropWhile isPySpace).reverse

/-- Python `str.strip()`. -/
def strip (s : List Char) : List Char := lstrip (rstrip s)

/-- A word is well formed when it is nonempty and free of whitespace,
periods and hyphens. -/
def goodWord (w : List Char) : Prop :=
  w ≠ [] ∧ ∀ c ∈ w, isPySpace c = false ∧ c ≠ '.' ∧ c ≠ '-'

instance : DecidablePred goodWord := fun w => by
  unfold goodWord; infer_instance

theorem pool_good : ∀ w ∈ LOREM_WORDS, goodWord w ∧ goodWord (capitalize w) := by
  decide

theorem choice_mem (g : RNG) : (choice g).1 ∈ LOREM_WORDS := by
  unfold choice
  exact List.get_mem _ _ _

theorem joinWith_cons (sep x : List Char) (ys : List (List Char)) (h : ys ≠ []) :
    joinWith sep (x :: ys) = x ++ sep ++ joinWith sep ys := by
  cases ys with
  | nil => exact absurd rfl h
  | cons y rest => rfl

theorem joinWith_append (sep : List Char) (x : List Char) :
    ∀ (ws : List (List Char)), ws ≠ [] →
      joinWith sep (ws ++ [x]) = joinWith sep ws ++ sep ++ x := by
  intro ws
  induction ws with
  | nil => intro h; exact absurd rfl h
  | cons w ws ih =>
    intro _
    cases ws with
    | nil => rfl
    | cons v rest =>
      rw [List.cons_append, joinWith_cons _ _ _ (by simp),
        joinWith_cons _ _ _ (by simp), ih (by simp)]
      simp [List.append_assoc]

theorem joinWith_head? (sep : List Char) (c : Char) (cs : List Char)
    (rest : List (List Char)) :
    (joinWith sep ((c :: cs) :: rest)).head? = some c := by
  cases rest <;> simp [joinWith]

theorem joinWith_getLast? (sep : List Char) (x : List Char) (hx : x ≠ []) :
    ∀ ws : List (List Char), (joinWith sep (ws ++ [x])).getLast? = x.getLast? := by
  intro ws
  induction ws with
  | nil => simp [joinWith]
  | cons w ws ih =>
    rw [List.cons_append, joinWith_cons _ _ _ (by simp), List.getLast?_append, ih]
    cases hx' : x.getLast? with
    | none => exact absurd (by simpa using hx') hx
    | some d => rfl

theorem joinWith_mem (sep : List Char) :
    ∀ (ws : List (List Char)) (c : Char),
      c ∈ joinWith sep ws → (∃ w ∈ ws, c ∈ w) ∨ c ∈ sep := by
  intro ws
  induction ws with
  | nil => intro c hc; simp [joinWith] at hc
  | cons w ws ih =>
    intro c hc
    cases ws with
    | nil =>
      simp only [joinWith] at hc
      exact Or.inl ⟨w, by simp, hc⟩
    | cons v rest =>
      rw [joinWith_cons _ _ _ (by simp)] at hc
      rcases List.mem_append.mp hc with h | h
      · rcases List.mem_append.mp h with h | h
        · exact Or.inl ⟨w, by simp, h⟩
        · exact Or.inr h
      · rcases ih c h with ⟨u, hu, hcu⟩ | h
        · exact Or.inl ⟨u, by simp [hu], hcu⟩
        · exact Or.inr h

theorem joinWords_append_length_lt (ws : List (List Char)) (x : List Char)
    (hx : x ≠ []) :
    (joinWords ws).length + 1 ≤ (joinWords (ws ++ [x])).length := by
  have hx' : 1 ≤ x.length := by
    cases x with
    | nil => exact absurd rfl hx
    | cons a l => simp
  by_cases h : ws = []
  · subst h
    simpa [joinWords, joinWith] using hx'
  · unfold joinWords
    rw [joinWith_append _ _ _ h]
    simp only [List.length_append]
    omega

theorem dropWhile_head?_false {p : Char → Bool} :
    ∀ {s : List Char} {c : Char}, (s.dropWhile p).head? = some c → p c = false := by
  intro s
  induction s with
  | nil => intro c h; simp [List.dropWhile] at h
  | cons x xs ih =>
    intro c h
    rw [List.dropWhile_cons] at h
    by_cases hx : p x = true
    · rw [if_pos hx] at h
      exact ih h
    · rw [if_neg hx] at h
      obtain rfl : x = c := by simpa using h
      exact Bool.eq_false_iff.mpr hx

theorem dropWhile_eq_self {p : Char → Bool} :
    ∀ {s : List Char}, (∀ c, s.head? = some c → p c = false) → s.dropWhile p = s := by
  intro s h
  cases s with
  | nil => rfl
  | cons x xs =>
    rw [List.dropWhile_cons, if_neg (by simp [h x rfl])]

theorem rstrip_eq_self {s : List Char}
    (h : ∀ c, s.getLast? = some c → isPySpace c = false) : rstrip s = s := by
  unfold rstrip
  rw [dropWhile_eq_self (fun c hc => h c (by rwa [List.head?_reverse] at hc)),
    List.reverse_reverse]

theorem strip_eq_self {s : List Char}
    (h1 : ∀ c, s.head? = some c → isPySpace c = false)
    (h2 : ∀ c, s.getLast? = some c → isPySpace c = false) : strip s = s := by
  unfold strip lstrip
  rw [rstrip_eq_self h2, dropWhile_eq_self h1]

theorem rstrip_length_le (s : List Char) : (rstrip s).length ≤ s.length := by
  unfold rstrip
  rw [List.length_reverse]
  calc (s.reverse.dropWhile isPySpace).length
      ≤ s.reverse.length := (List.dropWhile_suffix _).sublist.length_le
    _ = s.length := List.length_reverse _

theorem strip_length_le (s : List Char) : (strip s).length ≤ s.length :=
  le_trans (List.dropWhile_suffix _).sublist.length_le (rstrip_length_le s)

theorem mem_rstrip {c : Char} {s : List Char} (h : c ∈ rstrip s) : c ∈ s := by
  unfold rstrip at h
  rw [List.mem_reverse] at h
  exact List.mem_reverse.mp ((List.dropWhile_suffix _).subset h)

theorem mem_strip {c : Char} {s : List Char} (h : c ∈ strip s) : c ∈ s :=
  mem_rstrip ((List.dropWhile_suffix _).subset h)

theorem strip_head? {s : List Char} {c : Char}
    (h : (strip s).head? = some c) : isPySpace c = false :=
  dropWhile_head?_false h

theorem strip_getLast? {s : List Char} {c : Char}
    (h : (strip s).getLast? = some c) : isPySpace c = false := by
  obtain ⟨t, ht⟩ := (List.dropWhile_suffix (l := rstrip s) isPySpace : strip s <:+ rstrip s)
  have h' : (List.dropWhile isPySpace (rstrip s)).getLast? = some c := h
  have hr : (rstrip s).getLast? = some c := by
    rw [← ht, List.getLast?_append, h']; rfl
  unfold rstrip at hr
  rw [List.getLast?_reverse] at hr
  exact dropWhile_head?_false hr

/-- The `while` loop of `gen_title`, with explicit fuel.  Each iteration
appends one nonempty drawn word, so the joined length grows by at least one
per iteration and `char_count` fuel always reaches the exit condition. -/
def gen_title_loop (char_count : Nat) :
    Nat → List (List Char) → RNG → List (List Char) × RNG
  | 0, words, g => (words, g)
  | fuel + 1, words, g =>
    if (joinWords words).length < char_count then
      gen_title_loop char_count fuel
        (words ++ [if words.isEmpty then capitalize (choice g).1 else (choice g).1])
        (choice g).2
    else (words, g)

/-- `gen_title` from the script: draw words until the space-joined length
reaches `char_count`, then truncate to `char_count` characters, `rstrip`
and `strip`.  `char_count ≤ 0` short-circuits to the empty string. -/
def gen_title (char_count : Int) (g : RNG) : List Char × RNG :=
  if char_count ≤ 0 then ([], g)
  else
    (strip (rstrip (((joinWords
        (gen_title_loop char_count.toNat char_count.toNat [] g).1)).take
          char_count.toNat)),
      (gen_title_loop char_count.toNat char_count.toNat [] g).2)

/-- A word appearing in a title: a pool word, possibly capitalized. -/
def titleWord (w : List Char) : Prop :=
  ∃ p ∈ LOREM_WORDS, w = p ∨ w = capitalize p

theorem titleWord_good {w : List Char} (h : titleWord w) : goodWord w := by
  unfold titleWord at h
  obtain ⟨p, hp, h2⟩ := h
  have hg := pool_good p hp
  rcases h2 with h2 | h2 <;> rw [h2]
  exacts [hg.1, hg.2]

theorem gen_title_loop_words (char_count : Nat) :
    ∀ (fuel : Nat) (words : List (List Char)) (g : RNG),
      (∀ w ∈ words, titleWord w) →
      ∀ w ∈ (gen_title_loop char_count fuel words g).1, titleWord w := by
  intro fuel
  induction fuel with
  | zero =>
    intro words g h
    simpa [gen_title_loop] using h
  | succ fuel ih =>
    intro words g h w hw
    simp only [gen_title_loop] at hw
    by_cases hc : (joinWords words).length < char_count
    · rw [if_pos hc] at hw
      refine ih _ _ ?_ w hw
      intro u hu
      rcases List.mem_append.mp hu with h1 | h1
      · exact h u h1
      · obtain rfl : u = (if words.isEmpty then capitalize (choice g).1
            else (choice g).1) := by simpa using h1
        by_cases he : words.isEmpty
        · rw [if_pos he]
          exact ⟨(choice g).1, choice_mem g, Or.inr rfl⟩
        · rw [if_neg he]
          exact ⟨(choice g).1, choice_mem g, Or.inl rfl⟩
    · rw [if_neg hc] at hw
      exact h w hw

theorem gen_title_mem {cc : Int} {g : RNG} {c : Char}
    (hc : c ∈ (gen_title cc g).1) :
    (∃ w, titleWord w ∧ c ∈ w) ∨ c = ' ' := by
  unfold gen_title at hc
  by_cases h0 : cc ≤ 0
  · rw [if_pos h0] at hc
    simp at hc
  · rw [if_neg h0] at hc
    simp only [] at hc
    have h1 := mem_rstrip (mem_strip hc)
    have h2 := List.mem_of_mem_take h1
    rcases joinWith_mem [' '] _ c h2 with ⟨w, hw, hcw⟩ | h3
    · exact Or.inl ⟨w, gen_title_loop_words _ _ _ _ (by simp) w hw, hcw⟩
    · right
      simpa using h3

/-- C7: for `char_count > 0` the generated title has length at most
`char_count`, is a single line with no sentence punctuation and no leading
or trailing whitespace; for `char_count ≤ 0` it is the empty string. -/
theorem C7_gen_title_spec (char_count : Int) (g : RNG) :
    (0 < char_count →
      (gen_title char_count g).1.length ≤ char_count.toNat ∧
      (∀ c ∈ (gen_title char_count g).1, c ≠ '\n' ∧ c ≠ '.') ∧
      (∀ c, (gen_title char_count g).1.head? = some c → isPySpace c = false) ∧
      (∀ c, (gen_title char_count g).1.getLast? = some c → isPySpace c = false)) ∧
    (char_count ≤ 0 → (gen_title char_count g).1 = []) := by
  constructor
  · intro hpos
    refine ⟨?_, ?_, ?_, ?_⟩
    · unfold gen_title
      rw [if_neg (by omega)]
      calc (strip (rstrip ((joinWords
            (gen_title_loop char_count.toNat char_count.toNat [] g).1).take
              char_count.toNat))).length
          ≤ (rstrip ((joinWords
            (gen_title_loop char_count.toNat char_count.toNat [] g).1).take
              char_count.toNat)).length := strip_length_le _
        _ ≤ ((joinWords
            (gen_title_loop char_count.toNat char_count.toNat [] g).1).take
              char_count.toNat).length := rstrip_length_le _
        _ ≤ char_count.toNat := List.length_take_le _ _
    · intro c hc
      rcases gen_title_mem hc with ⟨w, hw, hcw⟩ | rfl
      · obtain ⟨hne, hch⟩ := titleWord_good hw
        obtain ⟨hsp, hdot, hhyp⟩ := hch c hcw
        refine ⟨?_, hdot⟩
        intro h
        subst h
        simp [isPySpace] at hsp
      · exact ⟨by decide, by decide⟩
    · unfold gen_title
      rw [if_neg (by omega : ¬ char_count ≤ 0)]
      intro c hc
      exact strip_head? hc
    · unfold gen_title
      rw [if_neg (by omega : ¬ char_count ≤ 0)]
      intro c hc
      exact strip_getLast? hc
  · intro hneg
    unfold gen_title
    rw [if_pos hneg]

/-- A concrete generator state used by witnesses. -/
def rng0 : RNG := { stream := fun _ => 0, pos := 0 }

/-- Witness for C7 at `char_count = 10`. -/
theorem C7_gen_title_spec_witness :
    (0 : Int) < 10 ∧ (gen_title 10 rng0).1.length ≤ (10 : Int).toNat :=
  ⟨by decide, ((C7_gen_title_spec 10 rng0).1 (by decide)).1⟩

theorem joinWords_append_length (ws : List (List Char)) (x : List Char) :
    (joinWords (ws ++ [x])).length =
      (if ws = [] then 0 else (joinWords ws).length + 1) + x.length := by
  by_cases h : ws = []
  · subst h
    simp [joinWords, joinWith]
  · rw [if_neg h]
    unfold joinWords
    rw [joinWith_append _ _ _ h]
    simp only [List.length_append, List.length_cons, List.length_nil]

/-- The `while` loop of `gen_paragraph`, with explicit fuel.  `words` is
the accumulated word list, `char_len` is the joined length recomputed
after each append (it does not account for a period appended afterwards,
exactly as in the source), and `sentence_len` / `words_in_sentence` do the
sentence bookkeeping.  Each iteration appends one nonempty word, so
`target` fuel always reaches the exit condition
(`gen_paragraph_loop_spec`). -/
def gen_paragraph_loop (target : Nat) :
    Nat → List (List Char) → Nat → Nat → Nat → RNG → List (List Char) × RNG
  | 0, words, _, _, _, g => (words, g)
  | fuel + 1, words, char_len, sentence_len, words_in_sentence, g =>
    if char_len < target then
      let w := if words_in_sentence = 0 then capitalize (choice g).1 else (choice g).1
      if sentence_len ≤ words_in_sentence + 1 then
        gen_paragraph_loop target fuel (words ++ [w ++ ['.']])
          (joinWords (words ++ [w])).length
          (randint 6 20 (choice g).2).1 0 (randint 6 20 (choice g).2).2
      else
        gen_paragraph_loop target fuel (words ++ [w])
          (joinWords (words ++ [w])).length
          sentence_len (words_in_sentence + 1) (choice g).2
    else (words, g)

/-- A word appearing in a paragraph: a pool word, possibly capitalized
(sentence start) and possibly with an appended period (sentence end). -/
def parWord (w : List Char) : Prop :=
  ∃ p ∈ LOREM_WORDS,
    w = p ∨ w = capitalize p ∨ w = p ++ ['.'] ∨ w = capitalize p ++ ['.']

theorem parWord_good {w : List Char} (h : parWord w) :
    w ≠ [] ∧ ∀ c ∈ w, isPySpace c = false := by
  unfold parWord at h
  obtain ⟨p, hp, h2⟩ := h
  have h1 := pool_good p hp
  have e1 : p ≠ [] ∧ ∀ c ∈ p, isPySpace c = false :=
    ⟨h1.1.1, fun c hc => (h1.1.2 c hc).1⟩
  have e2 : capitalize p ≠ [] ∧ ∀ c ∈ capitalize p, isPySpace c = false :=
    ⟨h1.2.1, fun c hc => (h1.2.2 c hc).1⟩
  have edot : isPySpace '.' = false := by decide
  rcases h2 with h2 | h2 | h2 | h2 <;> rw [h2]
  · exact e1
  · exact e2
  · refine ⟨by simp, fun c hc => ?_⟩
    rcases List.mem_append.mp hc with h3 | h3
    · exact e1.2 c h3
    · obtain rfl : c = '.' := by simpa using h3
      exact edot
  · refine ⟨by simp, fun c hc => ?_⟩
    rcases List.mem_append.mp hc with h3 | h3
    · exact e2.2 c h3
    · obtain rfl : c = '.' := by simpa using h3
      exact edot

theorem gen_paragraph_loop_spec (target : Nat) :
    ∀ (fuel : Nat) (words : List (List Char)) (char_len sentence_len wis : Nat)
      (g : RNG),
      (∀ w ∈ words, parWord w) →
      char_len ≤ (joinWords words).length →
      target ≤ fuel + char_len →
      (∀ w ∈ (gen_paragraph_loop target fuel words char_len sentence_len wis g).1,
        parWord w) ∧
      target ≤ (joinWords
        (gen_paragraph_loop target fuel words char_len sentence_len wis g).1).length ∧
      words.length ≤
        (gen_paragraph_loop target fuel words char_len sentence_len wis g).1.length := by
  intro fuel
  induction fuel with
  | zero =>
    intro words cl sl wis g hw hcl hf
    simp only [gen_paragraph_loop]
    exact ⟨hw, by show target ≤ (joinWords words).length; omega, le_refl _⟩
  | succ fuel ih =>
    intro words cl sl wis g hw hcl hf
    simp only [gen_paragraph_loop]
    by_cases hc : cl < target
    · rw [if_pos hc]
      have hcw : (choice g).1 ∈ LOREM_WORDS := choice_mem g
      set w := (if wis = 0 then capitalize (choice g).1 else (choice g).1) with hwdef
      have hpw : parWord w := by
        unfold parWord
        refine ⟨(choice g).1, hcw, ?_⟩
        rw [hwdef]
        by_cases h0 : wis = 0
        · rw [if_pos h0]; right; left; rfl
        · rw [if_neg h0]; left; rfl
      have hpwdot : parWord (w ++ ['.']) := by
        unfold parWord
        refine ⟨(choice g).1, hcw, ?_⟩
        rw [hwdef]
        by_cases h0 : wis = 0
        · rw [if_pos h0]; right; right; right; rfl
        · rw [if_neg h0]; right; right; left; rfl
      have hwne : w ≠ [] := (parWord_good hpw).1
      have hlen1 : (joinWords words).length + 1 ≤ (joinWords (words ++ [w])).length :=
        joinWords_append_length_lt words w hwne
      have hall1 : ∀ u ∈ words ++ [w], parWord u := by
        intro u hu
        rcases List.mem_append.mp hu with h1 | h1
        · exact hw u h1
        · obtain rfl : u = w := by simpa using h1
          exact hpw
      have hall2 : ∀ u ∈ words ++ [w ++ ['.']], parWord u := by
        intro u hu
        rcases List.mem_append.mp hu with h1 | h1
        · exact hw u h1
        · obtain rfl : u = w ++ ['.'] := by simpa using h1
          exact hpwdot
      have hlen2 : (joinWords (words ++ [w])).length ≤
          (joinWords (words ++ [w ++ ['.']])).length := by
        rw [joinWords_append_length, joinWords_append_length]
        simp only [List.length_append, List.length_cons, List.length_nil]
        omega
      by_cases hs : sl ≤ wis + 1
      · rw [if_pos hs]
        have H := ih (words ++ [w ++ ['.']]) (joinWords (words ++ [w])).length
          (randint 6 20 (choice g).2).1 0 (randint 6 20 (choice g).2).2
          hall2 hlen2 (by omega)
        exact ⟨H.1, H.2.1, le_trans (by simp) H.2.2⟩
      · rw [if_neg hs]
        have H := ih (words ++ [w]) (joinWords (words ++ [w])).length
          sl (wis + 1) (choice g).2 hall1 (le_refl _) (by omega)
        exact ⟨H.1, H.2.1, le_trans (by simp) H.2.2⟩
    · rw [if_neg hc]
      exact ⟨hw, by show target ≤ (joinWords words).length; omega, le_refl _⟩

/-- The tail of `gen_paragraph`: join the words, `strip`, and append a
period unless the paragraph already ends with one. -/
def finish_paragraph (ws : List (List Char)) : List Char :=
  if (strip (joinWords ws)).getLast? = some '.' then strip (joinWords ws)
  else strip (joinWords ws) ++ ['.']

/-- `gen_paragraph` from the script.  The sentence-length draw happens
before the loop; `target_chars ≤ 0` short-circuits before any draw. -/
def gen_paragraph (target_chars : Int) (g : RNG) : List Char × RNG :=
  if target_chars ≤ 0 then ([], g)
  else
    (finish_paragraph (gen_paragraph_loop target_chars.toNat target_chars.toNat [] 0
        (randint 8 16 g).1 0 (randint 8 16 g).2).1,
     (gen_paragraph_loop target_chars.toNat target_chars.toNat [] 0
        (randint 8 16 g).1 0 (randint 8 16 g).2).2)

theorem joinWords_head_not_space {ws : List (List Char)} (hne : ws ≠ [])
    (hw : ∀ w ∈ ws, parWord w) :
    ∀ c, (joinWords ws).head? = some c → isPySpace c = false := by
  cases ws with
  | nil => exact absurd rfl hne
  | cons w rest =>
    have hpw := hw w (by simp)
    obtain ⟨hwne, hch⟩ := parWord_good hpw
    cases w with
    | nil => exact absurd rfl hwne
    | cons c0 cs =>
      intro c hc
      rw [joinWords, joinWith_head?] at hc
      obtain rfl : c0 = c := by simpa using hc
      exact hch c0 (by simp)

theorem joinWords_getLast_not_space {ws : List (List Char)} (hne : ws ≠ [])
    (hw : ∀ w ∈ ws, parWord w) :
    ∀ c, (joinWords ws).getLast? = some c → isPySpace c = false := by
  rcases List.eq_nil_or_concat ws with rfl | ⟨L, b, rfl⟩
  · exact absurd rfl hne
  · rw [List.concat_eq_append]
    have hpb := hw b (by simp)
    obtain ⟨hbne, hch⟩ := parWord_good hpb
    intro c hc
    rw [joinWords, joinWith_getLast? _ _ hbne] at hc
    exact hch c (List.mem_of_getLast?_eq_some hc)

theorem finish_paragraph_spec (ws : List (List Char)) (hne : ws ≠ [])
    (hw : ∀ w ∈ ws, parWord w) :
    (joinWords ws).length ≤ (finish_paragraph ws).length ∧
    (finish_paragraph ws).getLast? = some '.' ∧
    (∃ vs, vs ≠ [] ∧ (∀ w ∈ vs, parWord w) ∧ finish_paragraph ws = joinWords vs) := by
  have hstrip : strip (joinWords ws) = joinWords ws :=
    strip_eq_self (joinWords_head_not_space hne hw) (joinWords_getLast_not_space hne hw)
  unfold finish_paragraph
  rw [hstrip]
  by_cases hdot : (joinWords ws).getLast? = some '.'
  · rw [if_pos hdot]
    exact ⟨le_refl _, hdot, ws, hne, hw, rfl⟩
  · rw [if_neg hdot]
    refine ⟨by simp, by simp, ?_⟩
    rcases List.eq_nil_or_concat ws with rfl | ⟨L, b, rfl⟩
    · exact absurd rfl hne
    · rw [List.concat_eq_append] at hdot hw ⊢
      have hpb : parWord b := hw b (by simp)
      have hbne : b ≠ [] := (parWord_good hpb).1
      have hjoin : joinWords (L ++ [b]) ++ ['.'] = joinWords (L ++ [b ++ ['.']]) := by
        by_cases hL : L = []
        · subst hL
          simp [joinWords, joinWith]
        · unfold joinWords
          rw [joinWith_append _ _ _ hL, joinWith_append _ _ _ hL]
          simp [List.append_assoc]
      have hblast : b.getLast? ≠ some '.' := by
        intro hbl
        apply hdot
        rw [joinWords, joinWith_getLast? _ _ hbne, hbl]
      refine ⟨L ++ [b ++ ['.']], by simp, ?_, hjoin⟩
      intro w hw2
      rcases List.mem_append.mp hw2 with h1 | h1
      · exact hw w (by simp [h1])
      · obtain rfl : w = b ++ ['.'] := by simpa using h1
        unfold parWord at hpb ⊢
        obtain ⟨p, hp, h2⟩ := hpb
        rcases h2 with h2 | h2 | h2 | h2
        · exact ⟨p, hp, by rw [h2]; right; right; left; rfl⟩
        · exact ⟨p, hp, by rw [h2]; right; right; right; rfl⟩
        · exact absurd (by rw [h2]; simp) hblast
        · exact absurd (by rw [h2]; simp) hblast

theorem gen_paragraph_spec {t : Int} (g : RNG) (ht : 0 < t) :
    t.toNat ≤ (gen_paragraph t g).1.length ∧
    (gen_paragraph t g).1.getLast? = some '.' ∧
    (∃ vs, vs ≠ [] ∧ (∀ w ∈ vs, parWord w) ∧
      (gen_paragraph t g).1 = joinWords vs) := by
  obtain ⟨Hw, Hlen, -⟩ := gen_paragraph_loop_spec t.toNat t.toNat [] 0
    (randint 8 16 g).1 0 (randint 8 16 g).2 (by simp) (Nat.zero_le _) (by omega)
  have hne : (gen_paragraph_loop t.toNat t.toNat [] 0 (randint 8 16 g).1 0
      (randint 8 16 g).2).1 ≠ [] := by
    intro h0
    rw [h0] at Hlen
    simp only [joinWords, joinWith, List.length_nil] at Hlen
    omega
  have F := finish_paragraph_spec _ hne Hw
  have hres : (gen_paragraph t g).1 = finish_paragraph (gen_paragraph_loop t.toNat
      t.toNat [] 0 (randint 8 16 g).1 0 (randint 8 16 g).2).1 := by
    unfold gen_paragraph
    rw [if_neg (by omega)]
  rw [hres]
  exact ⟨le_trans Hlen F.1, F.2.1, F.2.2⟩

/-- C3: for every `target_chars > 0` and generator state, the generated
paragraph has length at least `target_chars`, is the space-join of pool
words (each possibly capitalized at a sentence start and possibly carrying
an appended period), and ends with a period. -/
theorem C3_gen_paragraph_spec (target_chars : Int) (g : RNG)
    (h : 0 < target_chars) :
    target_chars.toNat ≤ (gen_paragraph target_chars g).1.length ∧
    (gen_paragraph target_chars g).1.getLast? = some '.' ∧
    (∃ vs, vs ≠ [] ∧ (∀ w ∈ vs, parWord w) ∧
      (gen_paragraph target_chars g).1 = joinWords vs) :=
  gen_paragraph_spec g h

/-- C8: for `target_chars ≤ 0` (including negatives) `gen_paragraph`
returns the empty string and the generator state unchanged, so subsequent
draws are those of an untouched generator. -/
theorem C8_gen_paragraph_nonpos (target_chars : Int) (g : RNG)
    (h : target_chars ≤ 0) : gen_paragraph target_chars g = ([], g) := by
  unfold gen_paragraph
  rw [if_pos h]

/-- Witness for C3 at `target_chars = 5`. -/
theorem C3_gen_paragraph_spec_witness :
    (0 : Int) < 5 ∧ (5 : Int).toNat ≤ (gen_paragraph 5 rng0).1.length :=
  ⟨by decide, (C3_gen_paragraph_spec 5 rng0 (by decide)).1⟩

/-- Witness for C8 at `target_chars = -5`. -/
theorem C8_gen_paragraph_nonpos_witness :
    (-5 : Int) ≤ 0 ∧ gen_paragraph (-5) rng0 = ([], rng0) :=
  ⟨by decide, C8_gen_paragraph_nonpos (-5) rng0 (by decide)⟩

/-- The list comprehension of `main`: one paragraph per budget, threading
the generator left to right. -/
def gen_paragraphs : List Int → RNG → List (List Char) × RNG
  | [], g => ([], g)
  | n :: ns, g =>
    ((gen_paragraph n g).1 :: (gen_paragraphs ns (gen_paragraph n g).2).1,
     (gen_paragraphs ns (gen_paragraph n g).2).2)

theorem gen_paragraphs_min_length {ns : List Int} :
    ∀ (g : RNG), (∀ n ∈ ns, 20 ≤ n) →
      ∀ p ∈ (gen_paragraphs ns g).1, 20 ≤ p.length := by
  induction ns with
  | nil =>
    intro g _ p hp
    simp [gen_paragraphs] at hp
  | cons n ns ih =>
    intro g h p hp
    simp only [gen_paragraphs] at hp
    rcases List.mem_cons.mp hp with rfl | h1
    · have hn : 20 ≤ n := h n (by simp)
      have hlen := (gen_paragraph_spec g (by omega : (0 : Int) < n)).1
      omega
    · exact ih _ (fun m hm => h m (by simp [hm])) p h1

/-- C10: for every configuration with `paragraphs > 0` and
`characters ≥ 0`, every paragraph produced by the pipeline — the
minimum-budget fallback, then `distribute_chars`, then `gen_paragraph` on
each budget — has length at least 20. -/
theorem C10_pipeline_min_length (total_chars paragraphs : Int) (g : RNG)
    (hp : 0 < paragraphs) (hc : 0 ≤ total_chars) :
    ∀ p ∈ (gen_paragraphs
        (distribute_chars (effective_total total_chars paragraphs) paragraphs) g).1,
      20 ≤ p.length :=
  gen_paragraphs_min_length g (distribute_effective_ge20 total_chars paragraphs)

/-- Witness for C10 at `total_chars = 0`, `paragraphs = 1`. -/
theorem C10_pipeline_min_length_witness :
    (0 : Int) < 1 ∧ (0 : Int) ≤ 0 ∧
      ∀ p ∈ (gen_paragraphs (distribute_chars (effective_total 0 1) 1) rng0).1,
        20 ≤ p.length :=
  ⟨by decide, by decide, C10_pipeline_min_length 0 1 rng0 (by decide) (by decide)⟩

/-- The chunking of `textwrap._split` for text free of hyphens and of
whitespace other than plain spaces (all text this script wraps is of that
shape): maximal runs of spaces alternate with maximal runs of non-space
characters. -/
def toChunks : List Char → List (List Char)
  | [] => []
  | c :: cs =>
    match toChunks cs with
    | [] => [[c]]
    | [] :: rest => [c] :: [] :: rest
    | (d :: ds) :: rest =>
      if (c == ' ') == (d == ' ') then (c :: d :: ds) :: rest
      else [c] :: (d :: ds) :: rest

/-- Total length of a list of chunks (`cur_len` bookkeeping). -/
def sumLen (l : List (List Char)) : Nat := (l.map List.length).sum

/-- A chunk that is all whitespace (`chunk.strip() == ''`). -/
def isBlank (c : List Char) : Bool := c.all isPySpace

/-- The greedy inner loop of `textwrap._wrap_chunks`: take chunks while the
accumulated length stays within `width`; returns the taken chunks and the
remainder. -/
def takeChunks (width : Nat) : Nat → List (List Char) → List (List Char) × List (List Char)
  | _, [] => ([], [])
  | cur_len, c :: cs =>
    if cur_len + c.length ≤ width then
      (c :: (takeChunks width (cur_len + c.length) cs).1,
       (takeChunks width (cur_len + c.length) cs).2)
    else ([], c :: cs)

/-- On every line but the first, `_wrap_chunks` drops a leading
all-whitespace chunk. -/
def dropLeading (first : Bool) (chunks : List (List Char)) : List (List Char) :=
  match first, chunks with
  | false, c :: cs => if isBlank c then cs else c :: cs
  | _, cs => cs

/-- `textwrap._handle_long_word` (for hyphen-free text): when the head of
the remaining chunks alone exceeds `width`, cut `space_left` characters
off it onto the current line. -/
def handleLong (width : Nat) (t : List (List Char) × List (List Char)) :
    List (List Char) × List (List Char) :=
  match t.2 with
  | [] => t
  | r :: rs =>
    if width < r.length then
      (t.1 ++ [r.take (if width < 1 then 1 else width - sumLen t.1)],
       r.drop (if width < 1 then 1 else width - sumLen t.1) :: rs)
    else t

/-- Drop one trailing all-whitespace chunk from the current line. -/
def dropTrailing (cur : List (List Char)) : List (List Char) :=
  match cur.getLast? with
  | some l => if isBlank l then cur.dropLast else cur
  | none => cur

/-- One iteration of `textwrap._wrap_chunks`: drop leading whitespace,
greedily take chunks, break an oversized head chunk, drop a trailing
all-whitespace chunk, and emit the line if any chunks remain on it. -/
def wrapOnce (width : Nat) (first : Bool) (chunks0 : List (List Char)) :
    Option (List Char) × List (List Char) :=
  ((if (dropTrailing
        (handleLong width (takeChunks width 0 (dropLeading first chunks0))).1).isEmpty
     then none
     else some (dropTrailing
        (handleLong width (takeChunks width 0 (dropLeading first chunks0))).1).flatten),
   (handleLong width (takeChunks width 0 (dropLeading first chunks0))).2)

/-- The outer loop of `textwrap._wrap_chunks`, with fuel; each iteration
either consumes at least one chunk or shortens the head chunk, so the
fuel used by `wrap` suffices. -/
def wrapLoop (width : Nat) : Nat → Bool → List (List Char) → List (List Char)
  | 0, _, _ => []
  | _ + 1, _, [] => []
  | fuel + 1, first, c :: cs =>
    match wrapOnce width first (c :: cs) with
    | (some l, rest) => l :: wrapLoop width fuel false rest
    | (none, rest) => wrapLoop width fuel first rest

/-- `textwrap.wrap` (for the hyphen-free, plain-space text this script
produces): the list of wrapped lines. -/
def wrap (width : Nat) (text : List Char) : List (List Char) :=
  wrapLoop width (sumLen (toChunks text) + (toChunks text).length + 1) true
    (toChunks text)

/-- `textwrap.fill`: the wrapped lines joined with newlines. -/
def fill (width : Nat) (text : List Char) : List Char :=
  joinWith ['\n'] (wrap width text)

/-- `render_markdown` from the script: optional `# title` heading plus a
blank line, each paragraph wrapped with `textwrap.fill` followed by a
blank line, one trailing blank entry popped, all joined with newlines. -/
def render_markdown (title : List Char) (paragraphs : List (List Char))
    (max_line_len : Nat) : List Char :=
  joinWith ['\n']
    (if ((if title.isEmpty then [] else [('#' :: ' ' :: title), []]) ++
          (paragraphs.map (fun p => [fill max_line_len p, []])).flatten).getLast?
        = some [] then
      ((if title.isEmpty then [] else [('#' :: ' ' :: title), []]) ++
          (paragraphs.map (fun p => [fill max_line_len p, []])).flatten).dropLast
     else
      (if title.isEmpty then [] else [('#' :: ' ' :: title), []]) ++
          (paragraphs.map (fun p => [fill max_line_len p, []])).flatten)

/-- Replace the newlines a wrapper inserted by spaces; a wrap that breaks
only at word boundaries satisfies `unwrap (fill w p) = p`. -/
def unwrap (doc : List Char) : List Char :=
  doc.map (fun c => if c = '\n' then ' ' else c)

theorem sumLen_nil : sumLen [] = 0 := rfl

theorem sumLen_cons (c : List Char) (l : List (List Char)) :
    sumLen (c :: l) = c.length + sumLen l := by
  simp [sumLen]

theorem sumLen_append (l1 l2 : List (List Char)) :
    sumLen (l1 ++ l2) = sumLen l1 + sumLen l2 := by
  simp [sumLen]

theorem sumLen_dropLast_le (l : List (List Char)) :
    sumLen l.dropLast ≤ sumLen l := by
  rcases List.eq_nil_or_concat l with rfl | ⟨L, b, rfl⟩
  · simp
  · rw [List.concat_eq_append, List.dropLast_concat, sumLen_append]
    omega

theorem length_flatten_eq_sumLen (l : List (List Char)) :
    l.flatten.length = sumLen l := by
  simp [sumLen]

theorem takeChunks_sumLen (width : Nat) :
    ∀ (cs : List (List Char)) (a : Nat), a ≤ width →
      a + sumLen (takeChunks width a cs).1 ≤ width := by
  intro cs
  induction cs with
  | nil =>
    intro a ha
    simpa [takeChunks, sumLen] using ha
  | cons c cs ih =>
    intro a ha
    simp only [takeChunks]
    by_cases h : a + c.length ≤ width
    · rw [if_pos h]
      have h2 := ih (a + c.length) h
      rw [sumLen_cons]
      omega
    · rw [if_neg h]
      simpa [sumLen] using ha

theorem handleLong_sumLen (width : Nat) (hpos : 0 < width)
    (t : List (List Char) × List (List Char)) (h : sumLen t.1 ≤ width) :
    sumLen (handleLong width t).1 ≤ width := by
  cases h2 : t.2 with
  | nil => simpa only [handleLong, h2] using h
  | cons r rs =>
    simp only [handleLong, h2]
    by_cases h3 : width < r.length
    · rw [if_pos h3]
      simp only [sumLen_append, sumLen_cons, sumLen_nil]
      rw [if_neg (by omega : ¬ width < 1)]
      have : (r.take (width - sumLen t.1)).length ≤ width - sumLen t.1 := by
        simp [List.length_take]
      omega
    · rw [if_neg h3]
      exact h

theorem dropTrailing_sumLen (cur : List (List Char)) :
    sumLen (dropTrailing cur) ≤ sumLen cur := by
  unfold dropTrailing
  cases h : cur.getLast? with
  | none => exact le_refl _
  | some l =>
    show sumLen (if isBlank l = true then cur.dropLast else cur) ≤ sumLen cur
    by_cases hb : isBlank l
    · rw [if_pos hb]
      exact sumLen_dropLast_le cur
    · rw [if_neg hb]

theorem wrapOnce_line_le (width : Nat) (hpos : 0 < width) (first : Bool)
    (chunks : List (List Char)) {l : List Char}
    (h : (wrapOnce width first chunks).1 = some l) : l.length ≤ width := by
  unfold wrapOnce at h
  by_cases he : (dropTrailing
      (handleLong width (takeChunks width 0 (dropLeading first chunks))).1).isEmpty
  · rw [if_pos he] at h
    exact absurd h (by simp)
  · rw [if_neg he] at h
    have hl : l = (dropTrailing
        (handleLong width (takeChunks width 0 (dropLeading first chunks))).1).flatten := by
      simpa using h.symm
    have h1 : sumLen (takeChunks width 0 (dropLeading first chunks)).1 ≤ width := by
      have := takeChunks_sumLen width (dropLeading first chunks) 0 (Nat.zero_le _)
      omega
    have h2 := handleLong_sumLen width hpos _ h1
    have h3 := dropTrailing_sumLen
      (handleLong width (takeChunks width 0 (dropLeading first chunks))).1
    rw [hl, length_flatten_eq_sumLen]
    omega

theorem wrapLoop_line_le (width : Nat) (hpos : 0 < width) :
    ∀ (fuel : Nat) (first : Bool) (chunks : List (List Char)),
      ∀ l ∈ wrapLoop width fuel first chunks, l.length ≤ width := by
  intro fuel
  induction fuel with
  | zero =>
    intro first chunks l hl
    simp [wrapLoop] at hl
  | succ fuel ih =>
    intro first chunks l hl
    cases chunks with
    | nil => simp [wrapLoop] at hl
    | cons c cs =>
      rw [wrapLoop] at hl
      cases hwo : wrapOnce width first (c :: cs) with
      | mk o rest =>
        cases o with
        | none =>
          rw [hwo] at hl
          exact ih first rest l hl
        | some line =>
          rw [hwo] at hl
          rcases List.mem_cons.mp hl with rfl | hl2
          · exact wrapOnce_line_le width hpos first (c :: cs) (by rw [hwo])
          · exact ih false rest l hl2

/-- The line-length bound for `wrap` on any input text. -/
theorem wrap_line_le (width : Nat) (hpos : 0 < width) (text : List Char) :
    ∀ l ∈ wrap width text, l.length ≤ width :=
  wrapLoop_line_le width hpos _ true (toChunks text)

/-- C4 counterexample: at paragraph `"abcd"` and `max_line_length = 3` the
renderer breaks in the middle of the single word, so the break is not at a
word boundary (replacing the inserted newline by a space does not recover
the paragraph). -/
theorem C4_render_markdown_midword_break :
    render_markdown [] ["abcd".toList] 3 = "abc\nd".toList ∧
    unwrap (render_markdown [] ["abcd".toList] 3) ≠ "abcd".toList := by
  refine ⟨by decide, by decide⟩

/-- A word as the wrapper sees one: nonempty, free of whitespace and of
hyphens (true of everything the generators emit). -/
def simpleWord (w : List Char) : Prop :=
  w ≠ [] ∧ ∀ c ∈ w, isPySpace c = false ∧ c ≠ '-'

instance : DecidablePred simpleWord := fun w => by
  unfold simpleWord; infer_instance

/-- The chunk sequence of a space-joined word list: words alternating with
single-space chunks. -/
def spaceSep : List (List Char) → List (List Char)
  | [] => []
  | [w] => [w]
  | w :: v :: rest => w :: [' '] :: spaceSep (v :: rest)

theorem spaceSep_cons (w : List Char) (ws : List (List Char)) (h : ws ≠ []) :
    spaceSep (w :: ws) = w :: [' '] :: spaceSep ws := by
  cases ws with
  | nil => exact absurd rfl h
  | cons v rest => rfl

theorem not_space_of_isPySpace_false {c : Char} (h : isPySpace c = false) :
    (c == ' ') = false := by
  cases hc : c == ' '
  · rfl
  · exfalso
    have hce : c = ' ' := by simpa using hc
    subst hce
    exact absurd h (by decide)

theorem toChunks_cons_eq (c : Char) (s : List Char) :
    toChunks (c :: s) =
      match toChunks s with
      | [] => [[c]]
      | [] :: rest => [c] :: [] :: rest
      | (d :: ds) :: rest =>
        if (c == ' ') == (d == ' ') then (c :: d :: ds) :: rest
        else [c] :: (d :: ds) :: rest := rfl

theorem toChunks_cons_shape (c : Char) (s : List Char) :
    ∃ ds rest, toChunks (c :: s) = (c :: ds) :: rest := by
  cases h : toChunks s with
  | nil =>
    refine ⟨[], [], ?_⟩
    simp only [toChunks, h]
  | cons d rest =>
    cases d with
    | nil =>
      refine ⟨[], [] :: rest, ?_⟩
      simp only [toChunks, h]
    | cons e ds =>
      by_cases he : (c == ' ') = (e == ' ')
      · refine ⟨e :: ds, rest, ?_⟩
        simp only [toChunks, h]
        rw [if_pos (by simp [he])]
      · refine ⟨[], (e :: ds) :: rest, ?_⟩
        simp only [toChunks, h]
        rw [if_neg (by simp [he])]

theorem toChunks_word_prepend :
    ∀ (w : List Char), w ≠ [] → (∀ ch ∈ w, (ch == ' ') = false) →
      ∀ (s : List Char), s = [] ∨ s.head? = some ' ' →
      toChunks (w ++ s) = w :: toChunks s := by
  intro w
  induction w with
  | nil => intro h; exact absurd rfl h
  | cons c w ih =>
    intro _ hch s hs
    cases w with
    | nil =>
      simp only [List.cons_append, List.nil_append]
      rcases hs with rfl | hh
      · rfl
      · cases s with
        | nil => simp at hh
        | cons a s2 =>
          obtain rfl : a = ' ' := by simpa using hh
          obtain ⟨ds, rest, hsh⟩ := toChunks_cons_shape ' ' s2
          conv_lhs => rw [toChunks_cons_eq, hsh]
          show (if ((c == ' ') == (' ' == ' ')) = true then (c :: ' ' :: ds) :: rest
              else [c] :: (' ' :: ds) :: rest) = [c] :: toChunks (' ' :: s2)
          rw [if_neg (by simp [hch c (by simp)]), hsh]
    | cons c2 w2 =>
      have hne : c2 :: w2 ≠ [] := by simp
      have hch2 : ∀ ch ∈ c2 :: w2, (ch == ' ') = false :=
        fun ch hc => hch ch (by simp at hc ⊢; exact Or.inr hc)
      have IH := ih hne hch2 s hs
      simp only [List.cons_append] at IH ⊢
      conv_lhs => rw [toChunks_cons_eq, IH]
      show (if ((c == ' ') == (c2 == ' ')) = true then (c :: c2 :: w2) :: toChunks s
          else [c] :: (c2 :: w2) :: toChunks s) = (c :: c2 :: w2) :: toChunks s
      rw [if_pos (by simp [hch c (by simp), hch c2 (by simp)])]

theorem toChunks_space_prepend (s : List Char)
    (hs : s = [] ∨ ∃ c, s.head? = some c ∧ (c == ' ') = false) :
    toChunks (' ' :: s) = [' '] :: toChunks s := by
  rcases hs with rfl | ⟨c, hh, hc⟩
  · rfl
  · cases s with
    | nil => simp at hh
    | cons a s2 =>
      have hca : (a == ' ') = false := by
        have ha : a = c := by simpa using hh
        rw [ha]; exact hc
      obtain ⟨ds, rest, hsh⟩ := toChunks_cons_shape a s2
      conv_lhs => rw [toChunks_cons_eq, hsh]
      show (if ((' ' == ' ') == (a == ' ')) = true then (' ' :: a :: ds) :: rest
          else [' '] :: (a :: ds) :: rest) = [' '] :: toChunks (a :: s2)
      rw [if_neg (by simp [hca]), hsh]

theorem toChunks_joinWords :
    ∀ (ws : List (List Char)), ws ≠ [] → (∀ w ∈ ws, simpleWord w) →
      toChunks (joinWords ws) = spaceSep ws := by
  intro ws
  induction ws with
  | nil => intro h; exact absurd rfl h
  | cons w ws ih =>
    intro _ hg
    have hw := hg w (by simp)
    have hwnospace : ∀ ch ∈ w, (ch == ' ') = false :=
      fun ch hc => not_space_of_isPySpace_false (hw.2 ch hc).1
    cases ws with
    | nil =>
      show toChunks (joinWords [w]) = [w]
      have h1 : joinWords [w] = w := rfl
      rw [h1]
      have := toChunks_word_prepend w hw.1 hwnospace [] (Or.inl rfl)
      simpa using this
    | cons v rest =>
      have hvrne : v :: rest ≠ [] := by simp
      have hj : joinWords (w :: v :: rest) =
          w ++ (' ' :: joinWords (v :: rest)) := by
        rw [joinWords, joinWith_cons _ _ _ hvrne]
        simp [List.append_assoc, joinWords]
      have hv := hg v (by simp)
      obtain ⟨c0, cs0, hv0⟩ : ∃ c0 cs0, v = c0 :: cs0 := by
        cases v with
        | nil => exact absurd rfl hv.1
        | cons a b => exact ⟨a, b, rfl⟩
      have hhead : (joinWords (v :: rest)).head? = some c0 := by
        rw [hv0, joinWords]
        exact joinWith_head? _ _ _ _
      have hc0 : (c0 == ' ') = false :=
        not_space_of_isPySpace_false (hv.2 c0 (by rw [hv0]; simp)).1
      have hcond : ' ' :: joinWords (v :: rest) = [] ∨
          (' ' :: joinWords (v :: rest)).head? = some ' ' := by
        right; rfl
      rw [hj, toChunks_word_prepend w hw.1 hwnospace _ hcond]
      rw [toChunks_space_prepend _ (Or.inr ⟨c0, hhead, hc0⟩)]
      rw [ih hvrne (fun u hu => hg u (by simp [hu]))]
      rw [spaceSep_cons _ _ hvrne]

theorem flatten_spaceSep : ∀ ws : List (List Char),
    (spaceSep ws).flatten = joinWords ws := by
  intro ws
  induction ws with
  | nil => rfl
  | cons w ws ih =>
    cases ws with
    | nil => simp [spaceSep, joinWords, joinWith]
    | cons v rest =>
      rw [spaceSep_cons _ _ (by simp), joinWords, joinWith_cons _ _ _ (by simp)]
      simp only [List.flatten_cons]
      rw [ih]
      simp [joinWords, List.append_assoc]

theorem le_spaceSep_length : ∀ ws : List (List Char),
    ws.length ≤ (spaceSep ws).length := by
  intro ws
  induction ws with
  | nil => simp [spaceSep]
  | cons w ws ih =>
    cases ws with
    | nil => simp [spaceSep]
    | cons v rest =>
      rw [spaceSep_cons _ _ (by simp)]
      simp only [List.length_cons] at ih ⊢
      omega

theorem takeChunks_cons_pos {width a : Nat} {c : List Char} {cs : List (List Char)}
    (h : a + c.length ≤ width) :
    takeChunks width a (c :: cs) =
      (c :: (takeChunks width (a + c.length) cs).1,
       (takeChunks width (a + c.length) cs).2) := by
  simp only [takeChunks]
  rw [if_pos h]

theorem takeChunks_cons_neg {width a : Nat} {c : List Char} {cs : List (List Char)}
    (h : ¬ a + c.length ≤ width) :
    takeChunks width a (c :: cs) = ([], c :: cs) := by
  simp only [takeChunks]
  rw [if_neg h]

theorem spaceSep_shape (v : List Char) (rest : List (List Char)) :
    ∃ t2, spaceSep (v :: rest) = v :: t2 := by
  cases rest with
  | nil => exact ⟨[], rfl⟩
  | cons u us => exact ⟨[' '] :: spaceSep (u :: us), rfl⟩

theorem takeChunks_spaceSep (width : Nat) :
    ∀ (rest : List (List Char)) (w0 : List Char) (a : Nat),
      a + w0.length ≤ width →
      ∃ ws1 ws2, w0 :: rest = ws1 ++ ws2 ∧ ws1 ≠ [] ∧
        ((ws2 = [] ∧
            takeChunks width a (spaceSep (w0 :: rest)) = (spaceSep ws1, [])) ∨
         (ws2 ≠ [] ∧
            takeChunks width a (spaceSep (w0 :: rest)) =
              (spaceSep ws1 ++ [[' ']], spaceSep ws2)) ∨
         (ws2 ≠ [] ∧
            takeChunks width a (spaceSep (w0 :: rest)) =
              (spaceSep ws1, [' '] :: spaceSep ws2))) := by
  intro rest
  induction rest with
  | nil =>
    intro w0 a hfit
    refine ⟨[w0], [], by simp, by simp, Or.inl ⟨rfl, ?_⟩⟩
    show takeChunks width a [w0] = ([w0], [])
    rw [takeChunks_cons_pos hfit]
    rfl
  | cons v rest ih =>
    intro w0 a hfit
    rw [spaceSep_cons _ _ (by simp : v :: rest ≠ [])]
    by_cases hsp : a + w0.length + 1 ≤ width
    · by_cases hv : a + w0.length + 1 + v.length ≤ width
      · obtain ⟨ws1, ws2, heq, hne1, hcase⟩ := ih v (a + w0.length + 1) hv
        refine ⟨w0 :: ws1, ws2, by rw [List.cons_append, ← heq], by simp, ?_⟩
        have hstep : takeChunks width a (w0 :: [' '] :: spaceSep (v :: rest)) =
            (w0 :: [' '] ::
              (takeChunks width (a + w0.length + 1) (spaceSep (v :: rest))).1,
             (takeChunks width (a + w0.length + 1) (spaceSep (v :: rest))).2) := by
          rw [takeChunks_cons_pos hfit,
            takeChunks_cons_pos (show a + w0.length + [' '].length ≤ width from hsp)]
          rfl
        rw [hstep]
        rcases hcase with ⟨h2, h3⟩ | ⟨h2, h3⟩ | ⟨h2, h3⟩
        · refine Or.inl ⟨h2, ?_⟩
          rw [h3, spaceSep_cons _ _ hne1]
        · refine Or.inr (Or.inl ⟨h2, ?_⟩)
          rw [h3, spaceSep_cons _ _ hne1]
          simp
        · refine Or.inr (Or.inr ⟨h2, ?_⟩)
          rw [h3, spaceSep_cons _ _ hne1]
      · refine ⟨[w0], v :: rest, rfl, by simp, Or.inr (Or.inl ⟨by simp, ?_⟩)⟩
        obtain ⟨t2, ht2⟩ := spaceSep_shape v rest
        rw [takeChunks_cons_pos hfit,
          takeChunks_cons_pos (show a + w0.length + [' '].length ≤ width from hsp),
          ht2,
          takeChunks_cons_neg
            (show ¬ a + w0.length + [' '].length + v.length ≤ width from hv)]
        rw [← ht2]
        rfl
    · refine ⟨[w0], v :: rest, rfl, by simp, Or.inr (Or.inr ⟨by simp, ?_⟩)⟩
      rw [takeChunks_cons_pos hfit,
        takeChunks_cons_neg (show ¬ a + w0.length + [' '].length ≤ width from hsp)]
      rfl

theorem word_not_blank {w : List Char} (h : simpleWord w) : isBlank w = false := by
  obtain ⟨hne, hch⟩ := h
  cases w with
  | nil => exact absurd rfl hne
  | cons c cs =>
    have hc := (hch c (by simp)).1
    simp [isBlank, List.all_cons, hc]

theorem dropLeading_word {first : Bool} {c : List Char} {cs : List (List Char)}
    (h : isBlank c = false) : dropLeading first (c :: cs) = c :: cs := by
  cases first with
  | true => rfl
  | false =>
    show (if isBlank c = true then cs else c :: cs) = c :: cs
    rw [if_neg (by simp [h])]

theorem dropLeading_space (cs : List (List Char)) :
    dropLeading false ([' '] :: cs) = cs := by
  show (if isBlank [' '] = true then cs else [' '] :: cs) = cs
  rw [if_pos (by decide)]

theorem handleLong_nil (width : Nat) (X : List (List Char)) :
    handleLong width (X, []) = (X, []) := rfl

theorem handleLong_skip {width : Nat} {X Y : List (List Char)} {r : List Char}
    (h : ¬ width < r.length) : handleLong width (X, r :: Y) = (X, r :: Y) := by
  unfold handleLong
  show (if width < r.length then _ else (X, r :: Y)) = (X, r :: Y)
  rw [if_neg h]

theorem dropTrailing_nonblank {cur : List (List Char)} {l : List Char}
    (h : cur.getLast? = some l) (hb : isBlank l = false) :
    dropTrailing cur = cur := by
  unfold dropTrailing
  rw [h]
  show (if isBlank l = true then cur.dropLast else cur) = cur
  rw [if_neg (by simp [hb])]

theorem dropTrailing_blank_concat (X : List (List Char)) :
    dropTrailing (X ++ [[' ']]) = X := by
  unfold dropTrailing
  rw [(by simp : (X ++ [[' ']]).getLast? = some [' '])]
  show (if isBlank [' '] = true then (X ++ [[' ']]).dropLast else X ++ [[' ']]) = X
  rw [if_pos (by decide), List.dropLast_concat]

theorem spaceSep_getLast? : ∀ ws : List (List Char), ws ≠ [] →
    (spaceSep ws).getLast? = ws.getLast? := by
  intro ws
  induction ws with
  | nil => intro h; exact absurd rfl h
  | cons w ws ih =>
    intro _
    cases ws with
    | nil => rfl
    | cons v rest =>
      rw [spaceSep_cons _ _ (by simp)]
      obtain ⟨t2, ht2⟩ := spaceSep_shape v rest
      rw [ht2, List.getLast?_cons_cons, List.getLast?_cons_cons, ← ht2,
        List.getLast?_cons_cons]
      exact ih (by simp)

theorem emit_spaceSep {ws1 : List (List Char)} (hne : ws1 ≠ []) :
    (if (spaceSep ws1).isEmpty then none else some (spaceSep ws1).flatten) =
      some (joinWords ws1) := by
  obtain ⟨w1, r1, rfl⟩ : ∃ a b, ws1 = a :: b := by
    cases ws1 with
    | nil => exact absurd rfl hne
    | cons a b => exact ⟨a, b, rfl⟩
  obtain ⟨t1, ht1⟩ := spaceSep_shape w1 r1
  rw [ht1, (by simp : (w1 :: t1).isEmpty = false)]
  rw [← ht1, flatten_spaceSep]
  rfl

theorem dropTrailing_spaceSep {ws1 : List (List Char)} (hne : ws1 ≠ [])
    (hg : ∀ w ∈ ws1, simpleWord w) :
    dropTrailing (spaceSep ws1) = spaceSep ws1 := by
  have hlast : (spaceSep ws1).getLast? = ws1.getLast? := spaceSep_getLast? ws1 hne
  obtain ⟨b, hbsome⟩ : ∃ b, ws1.getLast? = some b := by
    cases h : ws1.getLast? with
    | none => exact absurd (by simpa using h) hne
    | some b => exact ⟨b, rfl⟩
  exact dropTrailing_nonblank (by rw [hlast, hbsome])
    (word_not_blank (hg b (List.mem_of_getLast?_eq_some hbsome)))

theorem wrapOnce_spaceSep (width : Nat) (hpos : 0 < width) (first : Bool)
    (ws : List (List Char)) (hne : ws ≠ [])
    (hg : ∀ w ∈ ws, simpleWord w) (hfit : ∀ w ∈ ws, w.length ≤ width) :
    ∃ ws1 ws2, ws = ws1 ++ ws2 ∧ ws1 ≠ [] ∧
      ((ws2 = [] ∧
          wrapOnce width first (spaceSep ws) = (some (joinWords ws1), [])) ∨
       (ws2 ≠ [] ∧
          wrapOnce width first (spaceSep ws) =
            (some (joinWords ws1), spaceSep ws2)) ∨
       (ws2 ≠ [] ∧
          wrapOnce width first (spaceSep ws) =
            (some (joinWords ws1), [' '] :: spaceSep ws2))) := by
  obtain ⟨w0, rest, rfl⟩ : ∃ w0 rest, ws = w0 :: rest := by
    cases ws with
    | nil => exact absurd rfl hne
    | cons a b => exact ⟨a, b, rfl⟩
  have hw0 := hg w0 (by simp)
  obtain ⟨t0, ht0⟩ := spaceSep_shape w0 rest
  have hdl : dropLeading first (spaceSep (w0 :: rest)) = spaceSep (w0 :: rest) := by
    rw [ht0, dropLeading_word (word_not_blank hw0)]
  obtain ⟨ws1, ws2, heq, hne1, hcase⟩ :=
    takeChunks_spaceSep width rest w0 0 (by simpa using hfit w0 (by simp))
  refine ⟨ws1, ws2, heq, hne1, ?_⟩
  have hg1 : ∀ w ∈ ws1, simpleWord w := fun w hw =>
    hg w (by rw [heq]; exact List.mem_append.mpr (Or.inl hw))
  unfold wrapOnce
  rw [hdl]
  rcases hcase with ⟨h2, h3⟩ | ⟨h2, h3⟩ | ⟨h2, h3⟩
  · rw [h3, handleLong_nil]
    refine Or.inl ⟨h2, ?_⟩
    show ((if (dropTrailing (spaceSep ws1)).isEmpty then none
        else some (dropTrailing (spaceSep ws1)).flatten), ([] : List (List Char)))
      = (some (joinWords ws1), [])
    rw [dropTrailing_spaceSep hne1 hg1, emit_spaceSep hne1]
  · obtain ⟨v2, r2, hws2⟩ : ∃ a b, ws2 = a :: b := by
      cases ws2 with
      | nil => exact absurd rfl h2
      | cons a b => exact ⟨a, b, rfl⟩
    obtain ⟨t2, ht2⟩ := spaceSep_shape v2 r2
    have hv2fit : ¬ width < v2.length := by
      have := hfit v2 (by rw [heq, hws2]; exact List.mem_append.mpr (Or.inr (by simp)))
      omega
    rw [h3, hws2, ht2, handleLong_skip hv2fit]
    refine Or.inr (Or.inl ⟨by simp, ?_⟩)
    show ((if (dropTrailing (spaceSep ws1 ++ [[' ']])).isEmpty then none
        else some (dropTrailing (spaceSep ws1 ++ [[' ']])).flatten), v2 :: t2)
      = (some (joinWords ws1), v2 :: t2)
    rw [dropTrailing_blank_concat, emit_spaceSep hne1]
  · obtain ⟨v2, r2, hws2⟩ : ∃ a b, ws2 = a :: b := by
      cases ws2 with
      | nil => exact absurd rfl h2
      | cons a b => exact ⟨a, b, rfl⟩
    rw [h3, handleLong_skip (by simp; omega : ¬ width < ([' '] : List Char).length)]
    refine Or.inr (Or.inr ⟨h2, ?_⟩)
    show ((if (dropTrailing (spaceSep ws1)).isEmpty then none
        else some (dropTrailing (spaceSep ws1)).flatten), [' '] :: spaceSep ws2)
      = (some (joinWords ws1), [' '] :: spaceSep ws2)
    rw [dropTrailing_spaceSep hne1 hg1, emit_spaceSep hne1]

theorem wrapLoop_nil (width fuel : Nat) (first : Bool) :
    wrapLoop width fuel first [] = [] := by
  cases fuel <;> rfl

theorem wrapLoop_cons_some {width fuel : Nat} {first : Bool}
    {chunks R : List (List Char)} {c : List Char} {cs : List (List Char)}
    {l : List Char} (hcons : chunks = c :: cs)
    (h : wrapOnce width first chunks = (some l, R)) :
    wrapLoop width (fuel + 1) first chunks = l :: wrapLoop width fuel false R := by
  subst hcons
  show (match wrapOnce width first (c :: cs) with
      | (some l, rest) => l :: wrapLoop width fuel false rest
      | (none, rest) => wrapLoop width fuel first rest) =
    l :: wrapLoop width fuel false R
  rw [h]

theorem joinWith_append_both (sep : List Char) :
    ∀ (A B : List (List Char)), A ≠ [] → B ≠ [] →
      joinWith sep (A ++ B) = joinWith sep A ++ sep ++ joinWith sep B := by
  intro A
  induction A with
  | nil => intro B h; exact absurd rfl h
  | cons a A ih =>
    intro B _ hB
    cases A with
    | nil =>
      show joinWith sep (a :: B) = joinWith sep [a] ++ sep ++ joinWith sep B
      rw [joinWith_cons _ _ _ hB]
      rfl
    | cons a2 A2 =>
      have hne : a2 :: A2 ≠ [] := by simp
      have hne2 : (a2 :: A2) ++ B ≠ [] := by simp
      show joinWith sep (a :: ((a2 :: A2) ++ B)) =
        joinWith sep (a :: a2 :: A2) ++ sep ++ joinWith sep B
      rw [joinWith_cons _ _ _ hne2, ih B hne hB, joinWith_cons _ _ _ hne]
      simp [List.append_assoc]

theorem joinWords_ne_nil {ws : List (List Char)} (hne : ws ≠ [])
    (hw : ∀ w ∈ ws, w ≠ []) : joinWords ws ≠ [] := by
  obtain ⟨w, rest, rfl⟩ : ∃ a b, ws = a :: b := by
    cases ws with
    | nil => exact absurd rfl hne
    | cons a b => exact ⟨a, b, rfl⟩
  obtain ⟨c, cs, rfl⟩ : ∃ c cs, w = c :: cs := by
    cases h : w with
    | nil => exact absurd h (hw w (by simp))
    | cons c cs => exact ⟨c, cs, rfl⟩
  intro h
  have hh := joinWith_head? [' '] c cs rest
  rw [show joinWith [' '] ((c :: cs) :: rest) = joinWords ((c :: cs) :: rest) from rfl,
    h] at hh
  simp at hh

theorem wrapOnce_space_head (width : Nat) (ws : List (List Char)) (hne : ws ≠ [])
    (hg : ∀ w ∈ ws, simpleWord w) :
    wrapOnce width false ([' '] :: spaceSep ws) = wrapOnce width false (spaceSep ws) := by
  obtain ⟨w0, rest, rfl⟩ : ∃ a b, ws = a :: b := by
    cases ws with
    | nil => exact absurd rfl hne
    | cons a b => exact ⟨a, b, rfl⟩
  obtain ⟨t0, ht0⟩ := spaceSep_shape w0 rest
  unfold wrapOnce
  rw [ht0, dropLeading_space, dropLeading_word (word_not_blank (hg w0 (by simp)))]

theorem wrapLoop_spaceSep (width : Nat) (hpos : 0 < width) :
    ∀ (fuel : Nat) (ws : List (List Char)) (first : Bool)
      (chunks : List (List Char)),
      ws ≠ [] → (∀ w ∈ ws, simpleWord w) → (∀ w ∈ ws, w.length ≤ width) →
      ws.length ≤ fuel →
      (chunks = spaceSep ws ∨ (first = false ∧ chunks = [' '] :: spaceSep ws)) →
      joinWith [' '] (wrapLoop width fuel first chunks) = joinWords ws ∧
      ∀ l ∈ wrapLoop width fuel first chunks,
        ∃ vs, vs ≠ [] ∧ (∀ v ∈ vs, v ∈ ws) ∧ l = joinWords vs := by
  intro fuel
  induction fuel with
  | zero =>
    intro ws first chunks hne _ _ hlen _
    exact absurd (List.length_eq_zero.mp (Nat.le_zero.mp hlen)) hne
  | succ fuel ih =>
    intro ws first chunks hne hg hfit hlen hch
    obtain ⟨w0, rest0, rfl⟩ : ∃ a b, ws = a :: b := by
      cases ws with
      | nil => exact absurd rfl hne
      | cons a b => exact ⟨a, b, rfl⟩
    obtain ⟨t0, ht0⟩ := spaceSep_shape w0 rest0
    have hwone : wrapOnce width first chunks =
        wrapOnce width first (spaceSep (w0 :: rest0)) := by
      rcases hch with hch | ⟨hfirst, hch⟩
      · rw [hch]
      · subst hfirst
        rw [hch, wrapOnce_space_head width _ hne hg]
    have hcons : ∃ c cs, chunks = c :: cs := by
      rcases hch with hch | ⟨_, hch⟩
      · exact ⟨w0, t0, by rw [hch, ht0]⟩
      · exact ⟨[' '], spaceSep (w0 :: rest0), hch⟩
    obtain ⟨c, cs, hcons⟩ := hcons
    obtain ⟨ws1, ws2, heq, hne1, hcase⟩ :=
      wrapOnce_spaceSep width hpos first (w0 :: rest0) hne hg hfit
    have hlen12 : (w0 :: rest0).length = ws1.length + ws2.length := by
      rw [heq, List.length_append]
    have hws1pos : 0 < ws1.length := List.length_pos.mpr hne1
    have hg1 : ∀ w ∈ ws1, simpleWord w := fun w hw =>
      hg w (by rw [heq]; exact List.mem_append.mpr (Or.inl hw))
    have hmem1 : ∀ v ∈ ws1, v ∈ w0 :: rest0 := fun v hv => by
      rw [heq]; exact List.mem_append.mpr (Or.inl hv)
    rcases hcase with ⟨h2, h3⟩ | ⟨h2, h3⟩ | ⟨h2, h3⟩
    · -- everything fitted on one line
      rw [wrapLoop_cons_some hcons (by rw [hwone, h3]), wrapLoop_nil]
      have hws : ws1 = w0 :: rest0 := by
        rw [heq, h2, List.append_nil]
      constructor
      · rw [show joinWith [' '] [joinWords ws1] = joinWords ws1 from rfl, hws]
      · intro l hl
        obtain rfl : l = joinWords ws1 := by simpa using hl
        exact ⟨ws1, hne1, hmem1, rfl⟩
    · -- stopped at a word; separating space consumed and dropped
      have hne2 : ws2 ≠ [] := h2
      have hg2 : ∀ w ∈ ws2, simpleWord w := fun w hw =>
        hg w (by rw [heq]; exact List.mem_append.mpr (Or.inr hw))
      have hfit2 : ∀ w ∈ ws2, w.length ≤ width := fun w hw =>
        hfit w (by rw [heq]; exact List.mem_append.mpr (Or.inr hw))
      have hlen2 : ws2.length ≤ fuel := by
        have := hlen
        simp only [List.length_cons] at this hlen12
        omega
      have IH := ih ws2 false (spaceSep ws2) hne2 hg2 hfit2 hlen2 (Or.inl rfl)
      rw [wrapLoop_cons_some hcons (by rw [hwone, h3])]
      have hlinene : wrapLoop width fuel false (spaceSep ws2) ≠ [] := by
        intro h0
        have := IH.1
        rw [h0] at this
        exact joinWords_ne_nil hne2 (fun w hw => (hg2 w hw).1) this.symm
      constructor
      · rw [joinWith_cons _ _ _ hlinene, IH.1, heq]
        simp only [joinWords]
        rw [joinWith_append_both _ ws1 ws2 hne1 hne2]
      · intro l hl
        rcases List.mem_cons.mp hl with rfl | hl2
        · exact ⟨ws1, hne1, hmem1, rfl⟩
        · obtain ⟨vs, hvne, hvmem, hveq⟩ := IH.2 l hl2
          exact ⟨vs, hvne, fun v hv => by
            rw [heq]; exact List.mem_append.mpr (Or.inr (hvmem v hv)), hveq⟩
    · -- stopped at the separating space; it is dropped on the next line
      have hne2 : ws2 ≠ [] := h2
      have hg2 : ∀ w ∈ ws2, simpleWord w := fun w hw =>
        hg w (by rw [heq]; exact List.mem_append.mpr (Or.inr hw))
      have hfit2 : ∀ w ∈ ws2, w.length ≤ width := fun w hw =>
        hfit w (by rw [heq]; exact List.mem_append.mpr (Or.inr hw))
      have hlen2 : ws2.length ≤ fuel := by
        have := hlen
        simp only [List.length_cons] at this hlen12
        omega
      have IH := ih ws2 false ([' '] :: spaceSep ws2) hne2 hg2 hfit2 hlen2
        (Or.inr ⟨rfl, rfl⟩)
      rw [wrapLoop_cons_some hcons (by rw [hwone, h3])]
      have hlinene : wrapLoop width fuel false ([' '] :: spaceSep ws2) ≠ [] := by
        intro h0
        have := IH.1
        rw [h0] at this
        exact joinWords_ne_nil hne2 (fun w hw => (hg2 w hw).1) this.symm
      constructor
      · rw [joinWith_cons _ _ _ hlinene, IH.1, heq]
        simp only [joinWords]
        rw [joinWith_append_both _ ws1 ws2 hne1 hne2]
      · intro l hl
        rcases List.mem_cons.mp hl with rfl | hl2
        · exact ⟨ws1, hne1, hmem1, rfl⟩
        · obtain ⟨vs, hvne, hvmem, hveq⟩ := IH.2 l hl2
          exact ⟨vs, hvne, fun v hv => by
            rw [heq]; exact List.mem_append.mpr (Or.inr (hvmem v hv)), hveq⟩

theorem joinWords_getLast_nospace {ws : List (List Char)} (hne : ws ≠ [])
    (hw : ∀ w ∈ ws, w ≠ [] ∧ ∀ c ∈ w, isPySpace c = false) :
    ∀ c, (joinWords ws).getLast? = some c → isPySpace c = false := by
  rcases List.eq_nil_or_concat ws with rfl | ⟨L, b, rfl⟩
  · exact absurd rfl hne
  · rw [List.concat_eq_append]
    have hb := hw b (by simp)
    intro c hc
    rw [joinWords, joinWith_getLast? _ _ hb.1] at hc
    exact hb.2 c (List.mem_of_getLast?_eq_some hc)

theorem map_joinWith (f : Char → Char) (sep : List Char) :
    ∀ L : List (List Char),
      (joinWith sep L).map f = joinWith (sep.map f) (L.map (List.map f)) := by
  intro L
  induction L with
  | nil => rfl
  | cons x L ih =>
    cases L with
    | nil => rfl
    | cons y rest =>
      show (x ++ sep ++ joinWith sep (y :: rest)).map f =
        joinWith (sep.map f) (x.map f :: (y :: rest).map (List.map f))
      rw [List.map_append, List.map_append, ih]
      rw [joinWith_cons _ _ _ (by simp : (y :: rest).map (List.map f) ≠ [])]

theorem unwrap_id {l : List Char} (h : ∀ c ∈ l, c ≠ '\n') : unwrap l = l := by
  unfold unwrap
  have h2 : List.map (fun c => if c = '\n' then ' ' else c) l =
      List.map (fun c => c) l :=
    List.map_congr_left (fun c hc => if_neg (h c hc))
  rw [h2]
  exact List.map_id' l

theorem joinWith_suffix (sep : List Char) (x : List Char) :
    ∀ Z : List (List Char), x <:+ joinWith sep (Z ++ [x]) := by
  intro Z
  induction Z with
  | nil => simpa [joinWith] using List.suffix_refl x
  | cons z Z ih =>
    rw [List.cons_append, joinWith_cons _ _ _ (by simp)]
    exact ih.trans (List.suffix_append _ _)

theorem fill_spec_dom (width : Nat) (hpos : 0 < width) (ws : List (List Char))
    (hne : ws ≠ []) (hg : ∀ w ∈ ws, simpleWord w)
    (hfit : ∀ w ∈ ws, w.length ≤ width) :
    fill width (joinWords ws) ≠ [] ∧
    (∀ c, (fill width (joinWords ws)).getLast? = some c → isPySpace c = false) := by
  have hchunks : toChunks (joinWords ws) = spaceSep ws := toChunks_joinWords ws hne hg
  have hfuel : ws.length ≤ sumLen (toChunks (joinWords ws)) +
      (toChunks (joinWords ws)).length + 1 := by
    rw [hchunks]
    have := le_spaceSep_length ws
    omega
  have hloop := wrapLoop_spaceSep width hpos
    (sumLen (toChunks (joinWords ws)) + (toChunks (joinWords ws)).length + 1)
    ws true (toChunks (joinWords ws)) hne hg hfit hfuel (Or.inl hchunks)
  have hlne : wrapLoop width
      (sumLen (toChunks (joinWords ws)) + (toChunks (joinWords ws)).length + 1)
      true (toChunks (joinWords ws)) ≠ [] := by
    intro h0
    have h1 := hloop.1
    rw [h0] at h1
    exact joinWords_ne_nil hne (fun w hw => (hg w hw).1) h1.symm
  rcases List.eq_nil_or_concat (wrapLoop width
      (sumLen (toChunks (joinWords ws)) + (toChunks (joinWords ws)).length + 1)
      true (toChunks (joinWords ws))) with h0 | ⟨Lines, llast, hLL⟩
  · exact absurd h0 hlne
  · rw [List.concat_eq_append] at hLL
    obtain ⟨vs, hvne, hvmem, hveq⟩ := hloop.2 llast (by rw [hLL]; simp)
    have hlastne : llast ≠ [] := by
      rw [hveq]
      exact joinWords_ne_nil hvne (fun v hv => (hg v (hvmem v hv)).1)
    have hfill : fill width (joinWords ws) = joinWith ['\n'] (Lines ++ [llast]) := by
      unfold fill wrap
      rw [hLL]
    rw [hfill]
    have hjl := joinWith_getLast? ['\n'] llast hlastne Lines
    constructor
    · intro h0
      rw [h0] at hjl
      cases hx : llast.getLast? with
      | none => exact hlastne (by simpa using hx)
      | some d => rw [hx] at hjl; exact absurd hjl (by simp)
    · intro c hc
      rw [hjl, hveq] at hc
      exact joinWords_getLast_nospace hvne
        (fun v hv => ⟨(hg v (hvmem v hv)).1,
          fun ch hch => ((hg v (hvmem v hv)).2 ch hch).1⟩) c hc

theorem fill_unwrap (width : Nat) (hpos : 0 < width) (ws : List (List Char))
    (hne : ws ≠ []) (hg : ∀ w ∈ ws, simpleWord w)
    (hfit : ∀ w ∈ ws, w.length ≤ width) :
    unwrap (fill width (joinWords ws)) = joinWords ws := by
  have hchunks : toChunks (joinWords ws) = spaceSep ws := toChunks_joinWords ws hne hg
  have hfuel : ws.length ≤ sumLen (toChunks (joinWords ws)) +
      (toChunks (joinWords ws)).length + 1 := by
    rw [hchunks]
    have := le_spaceSep_length ws
    omega
  have hloop := wrapLoop_spaceSep width hpos
    (sumLen (toChunks (joinWords ws)) + (toChunks (joinWords ws)).length + 1)
    ws true (toChunks (joinWords ws)) hne hg hfit hfuel (Or.inl hchunks)
  have hmapnl : List.map (fun c => if c = '\n' then ' ' else c) ['\n'] = [' '] := by
    decide
  have h1 : unwrap (fill width (joinWords ws)) =
      joinWith [' ']
        ((wrapLoop width
          (sumLen (toChunks (joinWords ws)) + (toChunks (joinWords ws)).length + 1)
          true (toChunks (joinWords ws))).map unwrap) := by
    unfold fill wrap unwrap
    rw [map_joinWith, hmapnl]
  rw [h1]
  have h2 : ∀ l ∈ wrapLoop width
      (sumLen (toChunks (joinWords ws)) + (toChunks (joinWords ws)).length + 1)
      true (toChunks (joinWords ws)), unwrap l = l := by
    intro l hl
    obtain ⟨vs, hvne, hvmem, rfl⟩ := hloop.2 l hl
    apply unwrap_id
    intro c hc
    rcases joinWith_mem [' '] vs c hc with ⟨w, hw, hcw⟩ | hsep
    · have hns := ((hg w (hvmem w hw)).2 c hcw).1
      intro hceq
      subst hceq
      exact absurd hns (by decide)
    · obtain rfl : c = ' ' := by simpa using hsep
      decide
  have h3 : (wrapLoop width
      (sumLen (toChunks (joinWords ws)) + (toChunks (joinWords ws)).length + 1)
      true (toChunks (joinWords ws))).map unwrap =
      wrapLoop width
      (sumLen (toChunks (joinWords ws)) + (toChunks (joinWords ws)).length + 1)
      true (toChunks (joinWords ws)) := by
    rw [List.map_congr_left h2]
    exact List.map_id' _
  rw [h3, hloop.1]

theorem render_markdown_single (p : List Char) (width : Nat) :
    render_markdown [] [p] width = fill width p := by
  unfold render_markdown
  simp [joinWith]

theorem render_markdown_nil_nil (width : Nat) :
    render_markdown [] [] width = [] := by
  unfold render_markdown
  simp [joinWith]

theorem render_markdown_title_only {title : List Char} (h : title ≠ [])
    (width : Nat) : render_markdown title [] width = '#' :: ' ' :: title := by
  cases title with
  | nil => exact absurd rfl h
  | cons a b =>
    unfold render_markdown
    simp [joinWith]

theorem render_markdown_concat (title : List Char) (L : List (List Char))
    (plast : List Char) (width : Nat) :
    render_markdown title (L ++ [plast]) width =
      joinWith ['\n']
        ((if title.isEmpty then [] else [('#' :: ' ' :: title), []]) ++
          (L.map (fun p => [fill width p, []])).flatten ++ [fill width plast]) := by
  unfold render_markdown
  rw [List.map_append, List.flatten_append]
  have h1 : (([plast].map (fun p => [fill width p, []]))).flatten =
      [fill width plast, []] := by
    simp
  rw [h1]
  have h2 : (if title.isEmpty then [] else [('#' :: ' ' :: title), []]) ++
      ((L.map (fun p => [fill width p, []])).flatten ++ [fill width plast, []]) =
      ((if title.isEmpty then [] else [('#' :: ' ' :: title), []]) ++
        (L.map (fun p => [fill width p, []])).flatten ++ [fill width plast]) ++ [[]] := by
    simp [List.append_assoc]
  rw [h2]
  simp

/-- C4 (amended): for a paragraph that is the space-join of nonempty
whitespace- and hyphen-free words and any `max_line_length > 0`,
`render_markdown` reflows it through `textwrap.fill`; no emitted line
exceeds `max_line_length`, and the breaks fall only at word boundaries
(replacing each inserted newline by a space recovers the paragraph
exactly) provided every word is at most `max_line_length` long — a word
longer than `max_line_length` is instead broken mid-word
(`C4_render_markdown_midword_break`). -/
theorem C4_render_markdown_wrap_spec (ws : List (List Char)) (width : Nat)
    (hpos : 0 < width) (hne : ws ≠ []) (hg : ∀ w ∈ ws, simpleWord w) :
    render_markdown [] [joinWords ws] width = fill width (joinWords ws) ∧
    (∀ l ∈ wrap width (joinWords ws), l.length ≤ width) ∧
    ((∀ w ∈ ws, w.length ≤ width) →
      unwrap (fill width (joinWords ws)) = joinWords ws) :=
  ⟨render_markdown_single _ _, wrap_line_le width hpos _,
   fun hfit => fill_unwrap width hpos ws hne hg hfit⟩

/-- Witness for C4 (amended) at `ws = ["ab", "cde"]`, `width = 4`. -/
theorem C4_render_markdown_wrap_spec_witness :
    0 < 4 ∧ [['a','b'], ['c','d','e']] ≠ ([] : List (List Char)) ∧
    (∀ w ∈ [['a','b'], ['c','d','e']], simpleWord w) ∧
    render_markdown [] [joinWords [['a','b'], ['c','d','e']]] 4 =
      fill 4 (joinWords [['a','b'], ['c','d','e']]) :=
  ⟨by decide, by decide, by decide,
   (C4_render_markdown_wrap_spec [['a','b'], ['c','d','e']] 4 (by decide) (by decide)
     (by decide)).1⟩

/-- C5 counterexample: with title `"T"` and a single empty paragraph the
rendered document is `"# T\n\n"`: it ends with a blank line, not with the
paragraph's wrapped text. -/
theorem C5_render_markdown_trailing_blank :
    render_markdown ['T'] [[]] 80 = "# T\n\n".toList ∧
    ("# T\n\n".toList).getLast? = some '\n' := by
  refine ⟨by decide, by decide⟩

/-- C5 (amended): provided the title contains no newline and every
paragraph is a nonempty space-join of nonempty whitespace-free words that
fit the line width (so its wrapped text is nonempty), the rendered
document never ends with a blank line; it ends with the last paragraph's
wrapped text, with the `# title` heading when there are no paragraphs and
the title is nonempty, and is empty when both are empty. -/
theorem C5_render_markdown_spec (title : List Char) (ps : List (List Char))
    (width : Nat) (hpos : 0 < width) (hnl : '\n' ∉ title)
    (hps : ∀ p ∈ ps, ∃ ws, ws ≠ [] ∧ (∀ w ∈ ws, simpleWord w) ∧
      (∀ w ∈ ws, w.length ≤ width) ∧ p = joinWords ws) :
    (render_markdown title ps width).getLast? ≠ some '\n' ∧
    (∀ p, ps.getLast? = some p →
      fill width p <:+ render_markdown title ps width) ∧
    (ps = [] → render_markdown title ps width =
      if title.isEmpty then [] else '#' :: ' ' :: title) := by
  rcases List.eq_nil_or_concat ps with rfl | ⟨L, plast, rfl⟩
  · cases title with
    | nil =>
      rw [render_markdown_nil_nil]
      exact ⟨by simp, by intro p hp; simp at hp, fun _ => by simp⟩
    | cons a b =>
      rw [render_markdown_title_only (by simp)]
      refine ⟨?_, by intro p hp; simp at hp, fun _ => by simp⟩
      intro hlast
      rw [List.getLast?_cons_cons, List.getLast?_cons_cons] at hlast
      exact hnl (List.mem_of_getLast?_eq_some hlast)
  · rw [List.concat_eq_append] at hps ⊢
    obtain ⟨ws, hwne, hwg, hwfit, hplast⟩ := hps plast (by simp)
    have hfill := fill_spec_dom width hpos ws hwne hwg hwfit
    rw [render_markdown_concat]
    refine ⟨?_, ?_, by intro h; simp at h⟩
    · have hfne : fill width plast ≠ [] := by
        rw [hplast]; exact hfill.1
      have hj := joinWith_getLast? ['\n'] (fill width plast) hfne
        ((if title.isEmpty then [] else [('#' :: ' ' :: title), []]) ++
          (L.map (fun p => [fill width p, []])).flatten)
      rw [hj]
      intro hc
      rw [hplast] at hc
      exact absurd (hfill.2 '\n' hc) (by decide)
    · intro p hp
      obtain rfl : plast = p := by simpa using hp
      exact joinWith_suffix ['\n'] (fill width plast) _

/-- Witness for C5 (amended) at title `"T"`, one paragraph `"ab"`,
`width = 5`. -/
theorem C5_render_markdown_spec_witness :
    0 < 5 ∧ '\n' ∉ ['T'] ∧
      (render_markdown ['T'] [joinWords [['a','b']]] 5).getLast? ≠ some '\n' :=
  ⟨by decide, by decide,
   (C5_render_markdown_spec ['T'] [joinWords [['a','b']]] 5 (by decide) (by decide)
     (fun p hp => ⟨[['a','b']], by decide, by decide, by decide,
       by simpa using hp⟩)).1⟩

/-- The configuration values `main` reads before generating. -/
structure Settings where
  characters : Int
  paragraphs : Int
  max_line_length : Nat
  include_title : Bool
  title_characters : Int

/-- The generation pipeline of `main` after configuration parsing: apply
the minimum-budget fallback, distribute the budgets, generate every
paragraph in order threading the generator, then generate the title (when
enabled) from the post-paragraph generator state, and render. -/
def main_run (s : Settings) (g : RNG) : List Char :=
  render_markdown
    (if s.include_title then
      (gen_title s.title_characters
        (gen_paragraphs (distribute_chars
          (effective_total s.characters s.paragraphs) s.paragraphs) g).2).1
     else [])
    (gen_paragraphs (distribute_chars
      (effective_total s.characters s.paragraphs) s.paragraphs) g).1
    s.max_line_length

/-- C2: the pipeline is a pure function of the configuration and the seeded
generator state — two runs with identical configuration and equal states
produce identical documents — and it consumes the generator in the exact
order the script does: all paragraphs first, across the budgeted
paragraphs in order, then the title from the post-paragraph state. -/
theorem C2_main_run_deterministic :
    (∀ (s1 s2 : Settings) (g1 g2 : RNG), s1 = s2 → g1 = g2 →
      main_run s1 g1 = main_run s2 g2) ∧
    (∀ (s : Settings) (g : RNG),
      main_run s g =
        render_markdown
          (if s.include_title then
            (gen_title s.title_characters
              (gen_paragraphs (distribute_chars
                (effective_total s.characters s.paragraphs) s.paragraphs) g).2).1
           else [])
          (gen_paragraphs (distribute_chars
            (effective_total s.characters s.paragraphs) s.paragraphs) g).1
          s.max_line_length) := by
  constructor
  · intro s1 s2 g1 g2 h1 h2
    rw [h1, h2]
  · intro s g
    rfl

/-- A concrete configuration used by the C2 witness. -/
def settings0 : Settings :=
  { characters := 100, paragraphs := 2, max_line_length := 40,
    include_title := true, title_characters := 20 }

/-- Witness for C2 at a concrete configuration and generator state. -/
theorem C2_main_run_deterministic_witness :
    settings0 = settings0 ∧ rng0 = rng0 ∧
      main_run settings0 rng0 = main_run settings0 rng0 :=
  ⟨rfl, rfl, C2_main_run_deterministic.1 settings0 settings0 rng0 rng0 rfl rfl⟩
